import Mathlib

/-
Verification of the slotmap crate's `Key` type and of the base slot-store
engine, as a shallow embedding in Lean 4.

The repository file `src/lib.rs` declares the versioned `Key` record
(index plus nonzero version), its null / default constructors, and the
serde (de)serialization hardening rules. u32 values are embedded as `Nat`;
the `NonZeroU32::new(..).unwrap()` inside `Key::new` is embedded as an
`Option Key` that is `none` exactly when the unwrap would panic.

The slot-store engine itself (modules `normal` and `hop`) is not among the
repository's staged source files; the base engine is therefore modelled
from the spec (sections 3, 4.2 and 4.4) where a claim needs it.
-/

namespace Slotmap

/-- Rust's `std::u32::MAX`. -/
def u32Max : Nat := 2 ^ 32 - 1

/-- Number of distinct u32 values; versions wrap modulo this constant. -/
def u32Count : Nat := 2 ^ 32

/-- Key used to access stored values in a slot map, from `struct Key`:
`idx: u32`, `version: NonZeroU32`. Fields are embedded as `Nat`; the
nonzero invariant of `NonZeroU32` is enforced by `Key.new`. -/
structure Key where
  idx : Nat
  version : Nat
deriving DecidableEq, Repr

/-- Embeds `Key::new(idx, version)`: `NonZeroU32::new(version).unwrap()`
panics exactly when `version == 0`, which the embedding reports as `none`. -/
def Key.new (idx version : Nat) : Option Key :=
  if version = 0 then none else some ⟨idx, version⟩

/-- Embeds `Key::null()`: `Self::new(std::u32::MAX, 1)` (the unwrap inside
`Key::new` succeeds, see `null_eq_new`). -/
def Key.null : Key := ⟨u32Max, 1⟩

/-- Sanity: `Key.null` is what `Key::new(u32::MAX, 1)` returns. -/
theorem null_eq_new : Key.new u32Max 1 = some Key.null := rfl

/-- Embeds `Key::is_null`: `self.idx == std::u32::MAX`. -/
def Key.is_null (k : Key) : Bool := k.idx == u32Max

/-- Embeds `impl Default for Key`: `Self::null()`. -/
def Key.default : Key := Key.null

/-- Embeds the serde record `struct SerKey { idx: u32, version: u32 }`. -/
structure SerKey where
  idx : Nat
  version : Nat
deriving DecidableEq, Repr

/-- Embeds `impl Serialize for Key`: the emitted record copies both fields
(`version.get()` reads the raw u32 out of the `NonZeroU32`). -/
def Key.serialize (k : Key) : SerKey := ⟨k.idx, k.version⟩

/-- Embeds `impl Deserialize for Key` applied to an already-parsed `SerKey`
record: if `idx == u32::MAX` force `version = 1`; then `version |= 1`;
then `Key::new(idx, version)`. -/
def Key.deserialize (s : SerKey) : Option Key :=
  let v := if s.idx = u32Max then 1 else s.version
  Key.new s.idx (v ||| 1)

/-- Derived `Ord` on `Key`: lexicographic comparison of `idx` then
`version`, as `#[derive(PartialOrd, Ord)]` generates for the field order
of the struct. -/
def Key.cmp (a b : Key) : Ordering :=
  if a.idx < b.idx then Ordering.lt
  else if b.idx < a.idx then Ordering.gt
  else if a.version < b.version then Ordering.lt
  else if b.version < a.version then Ordering.gt
  else Ordering.eq

/-- Non-strict order induced by the derived `Ord`. -/
def Key.le (a b : Key) : Prop := Key.cmp a b ≠ Ordering.gt

/-- Derived `Hash` on `Key` feeds the fields to the hasher in declaration
order; the hasher input stream is therefore the pair of raw fields. -/
def Key.hashStream (k : Key) : List Nat := [k.idx, k.version]

/-- Keys obtainable through the public constructors of this module:
`Key::null()`, `Key::default()`, or deserialization of some record. -/
def Key.obtainable (k : Key) : Prop :=
  k = Key.null ∨ k = Key.default ∨ ∃ s : SerKey, Key.deserialize s = some k

/-! ### Bit-level helper lemmas about `v ||| 1` -/

/-- Setting the low bit makes a number odd. -/
theorem lor_one_mod_two (v : Nat) : (v ||| 1) % 2 = 1 := by
  have h := Nat.testBit_lor v 1 0
  simp only [Nat.testBit_zero] at h
  rcases Nat.mod_two_eq_zero_or_one (v ||| 1) with hv | hv
  · rw [hv] at h
    simp at h
  · exact hv

/-- Setting the low bit of an odd number changes nothing. -/
theorem lor_one_of_odd (v : Nat) (h : v % 2 = 1) : v ||| 1 = v := by
  apply Nat.eq_of_testBit_eq
  intro i
  rw [Nat.testBit_lor]
  cases i with
  | zero => simp [Nat.testBit_zero, h]
  | succ i => simp [Nat.testBit_succ]

/-- A number with its low bit set is nonzero. -/
theorem lor_one_ne_zero (v : Nat) : v ||| 1 ≠ 0 := by
  intro h
  have := lor_one_mod_two v
  rw [h] at this
  simp at this

/-- Facts established by `Key.deserialize` about every key it produces:
the index is copied from the record, the version is odd, and an index of
`u32::MAX` forces version 1. -/
theorem deserialize_shape (s : SerKey) (k : Key) (h : Key.deserialize s = some k) :
    k.idx = s.idx ∧ k.version % 2 = 1 ∧ (k.idx = u32Max → k.version = 1) := by
  obtain ⟨ki, kv⟩ := k
  by_cases hidx : s.idx = u32Max
  · have hone : (1 : Nat) ||| 1 = 1 := rfl
    simp [Key.deserialize, Key.new, hidx, hone] at h
    obtain ⟨hki, hkv⟩ := h
    simp [← hki, ← hkv, hidx]
  · simp only [Key.deserialize, Key.new, hidx, if_false] at h
    split at h
    · exact absurd h (by simp)
    · simp only [Option.some.injEq, Key.mk.injEq] at h
      obtain ⟨hki, hkv⟩ := h
      refine ⟨hki.symm, ?_, ?_⟩
      · rw [← hkv]
        exact lor_one_mod_two s.version
      · intro hmax
        exact absurd (hki ▸ hmax) hidx

/-- Round-trip helper: serialization followed by deserialization is the
identity on keys with odd version whose index, if it is `u32::MAX`, carries
version 1 (the canonical null key). -/
theorem roundtrip_of_odd (k : Key) (hodd : k.version % 2 = 1)
    (hnull : k.idx = u32Max → k.version = 1) :
    Key.deserialize (Key.serialize k) = some k := by
  obtain ⟨ki, kv⟩ := k
  by_cases hidx : ki = u32Max
  · have h1 : kv = 1 := hnull hidx
    have hone : (1 : Nat) ||| 1 = 1 := rfl
    simp [Key.serialize, Key.deserialize, Key.new, hidx, h1, hone]
  · have hnz : ¬ kv = 0 := by
      intro h0
      rw [h0] at hodd
      simp at hodd
    have hfix : kv ||| 1 = kv := lor_one_of_odd kv hodd
    simp [Key.serialize, Key.deserialize, Key.new, hidx, hfix, hnz]

/-! ### Base slot-store engine, modelled from the spec

The modules `normal` and `hop` that implement the stores are not among the
repository's staged sources; the definitions below carry doc comments
naming the spec sections they follow. -/

/-- Modelled from the spec: missing module `normal`'s slot type, spec §3
"Slot (base) — tagged union over exactly one of: `{ value: T, version: odd
u32 }` (occupied) or `{ next_free: u32, version: even u32 }` (vacant)".
The free-list link of a vacant slot is `none` at the end of the list. -/
inductive Slot (T : Type) where
  | occupied (value : T) (version : Nat)
  | vacant (next_free : Option Nat) (version : Nat)
deriving DecidableEq, Repr

/-- Version stored in a slot, whichever arm it is in. -/
def Slot.version {T : Type} : Slot T → Nat
  | Slot.occupied _ v => v
  | Slot.vacant _ v => v

/-- Modelled from the spec: missing module `normal`'s store, spec §2/§3 —
an indexable sequence of slots, a free-list head pointer, and the
incrementally maintained element count. -/
structure SlotMap (T : Type) where
  slots : List (Slot T)
  free_head : Option Nat
  num_elems : Nat
deriving DecidableEq, Repr

/-- Empty store. -/
def SlotMap.empty (T : Type) : SlotMap T := ⟨[], none, 0⟩

/-- Modelled from the spec: the append arm of insert, spec §4.2 "otherwise
append a new occupied slot with initial version 1 and return its handle.
Fails only if the index space is exhausted (index would exceed the capacity
ceiling)"; index `u32::MAX` is reserved for null (spec §3), so growth stops
when the next index would be `u32::MAX`. -/
def SlotMap.grow {T : Type} (sm : SlotMap T) (value : T) : Option (SlotMap T × Key) :=
  if sm.slots.length < u32Max then
    some (⟨sm.slots ++ [Slot.occupied value 1], sm.free_head, sm.num_elems + 1⟩,
          ⟨sm.slots.length, 1⟩)
  else none

/-- Modelled from the spec: `insert`, spec §4.2 "if the free list is
non-empty, pop its head slot, overwrite its vacant payload with `value`,
bump version by 1 (even→odd), and return `{index, version}`"; versions
live in u32 and wrap modulo 2^32 (spec §3). A free head that does not point
at a vacant slot cannot arise from the operations; the model then falls
back to the append arm to stay total. -/
def SlotMap.insert {T : Type} (sm : SlotMap T) (value : T) : Option (SlotMap T × Key) :=
  match sm.free_head with
  | some i =>
    match sm.slots[i]? with
    | some (Slot.vacant nf ver) =>
        some (⟨sm.slots.set i (Slot.occupied value ((ver + 1) % u32Count)), nf,
               sm.num_elems + 1⟩,
              ⟨i, (ver + 1) % u32Count⟩)
    | _ => sm.grow value
  | none => sm.grow value

/-- Modelled from the spec: `get`, spec §4.2/§4.4 — out-of-range index is
not found; otherwise the stored version must equal the handle's version,
and only an occupied slot holds a value to return. -/
def SlotMap.get {T : Type} (sm : SlotMap T) (k : Key) : Option T :=
  match sm.slots[k.idx]? with
  | some (Slot.occupied value ver) => if ver = k.version then some value else none
  | _ => none

/-- Modelled from the spec: `contains`, spec §4.2 "validity check with no
payload access", §4.4 — the handle is valid iff its index is in range and
the stored version equals the handle's version. -/
def SlotMap.contains {T : Type} (sm : SlotMap T) (k : Key) : Bool :=
  match sm.slots[k.idx]? with
  | some sl => sl.version == k.version
  | none => false

/-- Modelled from the spec: `remove`, spec §4.2 "validity check as above;
on success, bump the slot's version by 1 (odd→even), push the slot onto the
free-list head, and return the removed value; on failure, no observable
effect". -/
def SlotMap.remove {T : Type} (sm : SlotMap T) (k : Key) : Option (SlotMap T × T) :=
  match sm.slots[k.idx]? with
  | some (Slot.occupied value ver) =>
      if ver = k.version then
        some (⟨sm.slots.set k.idx (Slot.vacant sm.free_head ((ver + 1) % u32Count)),
               some k.idx, sm.num_elems - 1⟩, value)
      else none
  | _ => none

/-- An operation presented to a store: an insertion of a value or a removal
through a handle. -/
inductive Op (T : Type) where
  | insert (value : T)
  | remove (k : Key)
deriving DecidableEq, Repr

/-- Effect of one operation on the store's state (a failed insert or remove
leaves the state unchanged). -/
def stepOp {T : Type} (op : Op T) (sm : SlotMap T) : SlotMap T :=
  match op with
  | Op.insert v =>
    match sm.insert v with
    | some (sm2, _) => sm2
    | none => sm
  | Op.remove k =>
    match sm.remove k with
    | some (sm2, _) => sm2
    | none => sm

/-- Effect of a sequence of operations, first to last. -/
def applyOps {T : Type} (ops : List (Op T)) (sm : SlotMap T) : SlotMap T :=
  ops.foldl (fun s op => stepOp op s) sm

/-- Version currently stored at slot index `i`. -/
def SlotMap.versionAt {T : Type} (sm : SlotMap T) (i : Nat) : Option Nat :=
  (sm.slots[i]?).map Slot.version

theorem lt_of_versionAt {T : Type} {sm : SlotMap T} {i v : Nat}
    (h : sm.versionAt i = some v) : i < sm.slots.length := by
  unfold SlotMap.versionAt at h
  cases hg : sm.slots[i]? with
  | none => rw [hg] at h; simp at h
  | some sl => exact (List.getElem?_eq_some.mp hg).1

theorem grow_slots {T : Type} (sm : SlotMap T) (w : T) :
    ∀ sm2 k, sm.grow w = some (sm2, k) → sm2.slots = sm.slots ++ [Slot.occupied w 1] := by
  intro sm2 k h
  unfold SlotMap.grow at h
  split at h
  · cases h
    rfl
  · exact absurd h (by simp)

/-- One operation leaves the slot sequence unchanged, appends one slot, or
overwrites one existing slot with a slot whose version is the old one
bumped by one, modulo 2^32. -/
theorem stepOp_slots {T : Type} (op : Op T) (sm : SlotMap T) :
    (stepOp op sm).slots = sm.slots ∨
    (∃ x : Slot T, (stepOp op sm).slots = sm.slots ++ [x]) ∨
    (∃ (j : Nat) (sl x : Slot T), sm.slots[j]? = some sl ∧
      (stepOp op sm).slots = sm.slots.set j x ∧
      Slot.version x = (Slot.version sl + 1) % u32Count) := by
  cases op with
  | insert w =>
    simp only [stepOp]
    split
    · rename_i sm2 k heq
      unfold SlotMap.insert at heq
      split at heq
      · rename_i i' hfh
        split at heq
        · rename_i nf ver hsl
          cases heq
          right
          right
          exact ⟨i', Slot.vacant nf ver, Slot.occupied w ((ver + 1) % u32Count),
                 hsl, rfl, rfl⟩
        · right
          left
          exact ⟨Slot.occupied w 1, by rw [grow_slots sm w sm2 k heq]⟩
      · right
        left
        exact ⟨Slot.occupied w 1, by rw [grow_slots sm w sm2 k heq]⟩
    · left
      rfl
  | remove k =>
    simp only [stepOp]
    split
    · rename_i sm2 val heq
      unfold SlotMap.remove at heq
      split at heq
      · rename_i v0 ver hsl
        split at heq
        · rename_i hver
          cases heq
          right
          right
          exact ⟨k.idx, Slot.occupied val ver,
                 Slot.vacant sm.free_head ((ver + 1) % u32Count), hsl, rfl, rfl⟩
        · exact absurd heq (by simp)
      · exact absurd heq (by simp)
    · left
      rfl

/-- One operation either leaves the version stored at `i` unchanged or bumps
it by one, modulo 2^32. -/
theorem versionAt_stepOp {T : Type} (op : Op T) (sm : SlotMap T) (i v : Nat)
    (h : sm.versionAt i = some v) :
    (stepOp op sm).versionAt i = some v ∨
    (stepOp op sm).versionAt i = some ((v + 1) % u32Count) := by
  have hi : i < sm.slots.length := lt_of_versionAt h
  rcases stepOp_slots op sm with hc | ⟨x, hc⟩ | ⟨j, sl, x, hsl, hc, hx⟩
  · left
    unfold SlotMap.versionAt at h ⊢
    rw [hc]
    exact h
  · left
    unfold SlotMap.versionAt at h ⊢
    rw [hc]
    simpa [List.getElem?_append, hi] using h
  · by_cases hij : i = j
    · right
      subst hij
      have hv : Slot.version sl = v := by
        unfold SlotMap.versionAt at h
        rw [hsl] at h
        simpa using h
      unfold SlotMap.versionAt
      rw [hc]
      simp [List.getElem?_set_self hi, hx, hv]
    · left
      unfold SlotMap.versionAt at h ⊢
      rw [hc]
      simpa [List.getElem?_set_ne (fun hji => hij hji.symm)] using h

/-- Over a whole operation sequence the version stored at `i` advances by
some number of bumps bounded by the length of the sequence. -/
theorem versionAt_applyOps {T : Type} (ops : List (Op T)) :
    ∀ (sm : SlotMap T) (i v : Nat), sm.versionAt i = some v → v < u32Count →
    ∃ b, b ≤ ops.length ∧ (applyOps ops sm).versionAt i = some ((v + b) % u32Count) := by
  induction ops with
  | nil =>
    intro sm i v h hv
    exact ⟨0, Nat.le_refl 0, by simpa [applyOps, Nat.mod_eq_of_lt hv] using h⟩
  | cons op ops ih =>
    intro sm i v h hv
    have happ : applyOps (op :: ops) sm = applyOps ops (stepOp op sm) := by
      simp [applyOps]
    rcases versionAt_stepOp op sm i v h with h2 | h2
    · rcases ih (stepOp op sm) i v h2 hv with ⟨b, hb, hres⟩
      refine ⟨b, ?_, by rwa [happ]⟩
      simp only [List.length_cons]
      omega
    · have hlt : (v + 1) % u32Count < u32Count :=
        Nat.mod_lt _ (by norm_num [u32Count])
      rcases ih (stepOp op sm) i ((v + 1) % u32Count) h2 hlt with ⟨b, hb, hres⟩
      refine ⟨b + 1, ?_, ?_⟩
      · simp only [List.length_cons]
        omega
      · rw [happ, hres, Nat.mod_add_mod]
        have harith : v + 1 + b = v + (b + 1) := by omega
        rw [harith]

/-- A handle whose version differs from the version stored at its slot is
not found, both by `get` and by `contains`. -/
theorem not_found_of_version_ne {T : Type} (sm : SlotMap T) (k : Key)
    (h : ∀ v, sm.versionAt k.idx = some v → v ≠ k.version) :
    sm.get k = none ∧ sm.contains k = false := by
  unfold SlotMap.get SlotMap.contains
  cases hsl : sm.slots[k.idx]? with
  | none => simp
  | some sl =>
    have hne : Slot.version sl ≠ k.version := by
      apply h
      unfold SlotMap.versionAt
      rw [hsl]
      rfl
    cases sl with
    | occupied w ver =>
      simp only [Slot.version] at hne
      simp [Slot.version, hne]
    | vacant nf ver =>
      simp only [Slot.version] at hne
      simp [Slot.version, hne]

/-! ### Claims about `Key` -/

/-- Deserializing a record whose index is not `u32::MAX` gives the key with
the same index and the version's low bit forced on. -/
theorem deserialize_eq_of_ne_max (s : SerKey) (hidx : s.idx ≠ u32Max) :
    Key.deserialize s = some ⟨s.idx, s.version ||| 1⟩ := by
  simp [Key.deserialize, Key.new, hidx, lor_one_ne_zero s.version]

/-- Deserializing a record whose index is `u32::MAX` gives the canonical
null key. -/
theorem deserialize_eq_of_max (s : SerKey) (hidx : s.idx = u32Max) :
    Key.deserialize s = some Key.null := by
  have hone : (1 : Nat) ||| 1 = 1 := rfl
  simp [Key.deserialize, Key.new, hidx, hone, Key.null]

/-- C1: for every serialized record with `idx ≠ u32::MAX`, deserialization
succeeds and produces the key whose index is the input index and whose
version is the input version with its low bit forced on — always odd and
nonzero. -/
theorem deserialize_forces_odd_version (s : SerKey) (hidx : s.idx ≠ u32Max) :
    Key.deserialize s = some ⟨s.idx, s.version ||| 1⟩ ∧
    (s.version ||| 1) % 2 = 1 ∧ s.version ||| 1 ≠ 0 :=
  ⟨deserialize_eq_of_ne_max s hidx, lor_one_mod_two s.version,
   lor_one_ne_zero s.version⟩

/-- C1 witness: decoding `{idx: 0, version: 4}` yields the key with index 0
and version 5. -/
theorem deserialize_forces_odd_version_witness :
    Key.deserialize ⟨0, 4⟩ = some ⟨0, 4 ||| 1⟩ ∧
    ((4 : Nat) ||| 1) % 2 = 1 ∧ (4 : Nat) ||| 1 ≠ 0 :=
  deserialize_forces_odd_version ⟨0, 4⟩ (by decide)

/-- Sanity: forcing the low bit of 4 gives 5. -/
theorem four_lor_one : (4 : Nat) ||| 1 = 5 := rfl

/-- C2: deserializing any record whose index is `u32::MAX` yields exactly
the canonical null key, whatever the input version. -/
theorem deserialize_max_idx_is_null (v : Nat) :
    Key.deserialize ⟨u32Max, v⟩ = some Key.null :=
  deserialize_eq_of_max ⟨u32Max, v⟩ rfl

/-- C3 counterexample: the key with index `u32::MAX` and odd version 3 does
not survive a serialization round trip (it decodes to the canonical null
key instead), so the round-trip law does not hold for every key with odd
version. -/
theorem roundtrip_cex :
    (3 : Nat) % 2 = 1 ∧
    Key.deserialize (Key.serialize ⟨u32Max, 3⟩) ≠ some ⟨u32Max, 3⟩ := by
  constructor
  · rfl
  · decide

/-- C3 (amended): decoding the serialization of `h` reproduces `h` for
every key `h` whose version is odd, provided `h` is not a non-canonical
null-index key: if `h.idx = u32::MAX` then `h.version = 1`. All keys
produced by a store insert (whose index stays below `u32::MAX`) and the
null key satisfy this. -/
theorem roundtrip_odd_keys (k : Key) (hodd : k.version % 2 = 1)
    (hnull : k.idx = u32Max → k.version = 1) :
    Key.deserialize (Key.serialize k) = some k :=
  roundtrip_of_odd k hodd hnull

/-- C3 witness: the key with index 2 and version 7 round-trips. -/
theorem roundtrip_odd_keys_witness :
    Key.deserialize (Key.serialize ⟨2, 7⟩) = some ⟨2, 7⟩ :=
  roundtrip_odd_keys ⟨2, 7⟩ (by decide) (by decide)

/-- C4: key deserialization is total — for every record it returns a key,
and that key is well formed (its version is nonzero, so the unwrap of
`NonZeroU32::new` inside `Key::new` cannot fail). -/
theorem deserialize_never_fails (s : SerKey) :
    ∃ k : Key, Key.deserialize s = some k ∧ 0 < k.version := by
  by_cases hidx : s.idx = u32Max
  · exact ⟨Key.null, deserialize_eq_of_max s hidx, by norm_num [Key.null]⟩
  · exact ⟨⟨s.idx, s.version ||| 1⟩, deserialize_eq_of_ne_max s hidx,
      Nat.pos_of_ne_zero (lor_one_ne_zero s.version)⟩

/-- C5: the null key equals the default key; the null key has index
`u32::MAX` and version 1; and `is_null` holds exactly for keys whose index
is `u32::MAX`. -/
theorem null_default_is_null :
    Key.null = Key.default ∧ Key.null.idx = u32Max ∧ Key.null.version = 1 ∧
    ∀ k : Key, k.is_null = true ↔ k.idx = u32Max := by
  refine ⟨rfl, rfl, rfl, ?_⟩
  intro k
  simp [Key.is_null]

/-- C6: every obtainable key (null, default, or decoded from some record)
that satisfies `is_null` is the canonical null key; in particular two
obtainable null keys are equal. -/
theorem null_is_unique_obtainable (a b : Key)
    (ha : Key.obtainable a) (hb : Key.obtainable b)
    (hna : a.is_null = true) (hnb : b.is_null = true) :
    a = Key.null ∧ b = Key.null ∧ a = b := by
  have key : ∀ c : Key, Key.obtainable c → c.is_null = true → c = Key.null := by
    intro c hc hn
    have hcidx : c.idx = u32Max := by
      simpa [Key.is_null] using hn
    rcases hc with h | h | ⟨s, hs⟩
    · exact h
    · exact h
    · rcases deserialize_shape s c hs with ⟨_, _, hforce⟩
      have hv : c.version = 1 := hforce hcidx
      cases c
      simp_all [Key.null]
  have ha2 := key a ha hna
  have hb2 := key b hb hnb
  exact ⟨ha2, hb2, ha2.trans hb2.symm⟩

/-- C6 witness: the null key itself is obtainable, is null, and the theorem
applies to it on both sides. -/
theorem null_is_unique_obtainable_witness :
    Key.null = Key.null ∧ Key.null = Key.null ∧ Key.null = Key.null :=
  null_is_unique_obtainable Key.null Key.null (Or.inl rfl) (Or.inl rfl)
    (by decide) (by decide)

/-- Equality of keys is componentwise. -/
theorem key_eq_iff (a b : Key) : a = b ↔ a.idx = b.idx ∧ a.version = b.version := by
  constructor
  · intro h
    subst h
    exact ⟨rfl, rfl⟩
  · intro ⟨h1, h2⟩
    cases a
    cases b
    simp_all

/-- C7: key equality is structural over the field pair; the derived
comparison agrees with equality, is total, antisymmetric and transitive (a
total order); and the derived hash input is the field pair, so it is
structural as well. -/
theorem key_equality_order_hash_structural (a b c : Key) :
    (a = b ↔ a.idx = b.idx ∧ a.version = b.version) ∧
    (Key.cmp a b = Ordering.eq ↔ a = b) ∧
    (Key.le a b ∨ Key.le b a) ∧
    (Key.le a b → Key.le b a → a = b) ∧
    (Key.le a b → Key.le b c → Key.le a c) ∧
    (Key.hashStream a = Key.hashStream b ↔ a = b) := by
  refine ⟨key_eq_iff a b, ?_, ?_, ?_, ?_, ?_⟩
  · rw [key_eq_iff a b]
    unfold Key.cmp
    split_ifs <;> simp <;> omega
  · unfold Key.le Key.cmp
    split_ifs <;> simp
  · rw [key_eq_iff a b]
    unfold Key.le Key.cmp
    split_ifs <;> simp <;> omega
  · unfold Key.le Key.cmp
    split_ifs <;> simp <;> omega
  · rw [key_eq_iff a b]
    unfold Key.hashStream
    simp

/-- C9: deserialization is idempotent as a normalization — re-encoding a
decoded key and decoding it again gives the decoded key back. -/
theorem deserialize_idempotent (s : SerKey) (k : Key)
    (h : Key.deserialize s = some k) :
    Key.deserialize (Key.serialize k) = some k := by
  rcases deserialize_shape s k h with ⟨_, hodd, hforce⟩
  exact roundtrip_of_odd k hodd hforce

/-- C9 witness: decoding `{idx: 6, version: 2}` gives the key `(6, 3)`,
which re-encodes and decodes to itself. -/
theorem deserialize_idempotent_witness :
    Key.deserialize (Key.serialize ⟨6, 3⟩) = some ⟨6, 3⟩ :=
  deserialize_idempotent ⟨6, 2⟩ ⟨6, 3⟩ (by decide)

/-- C10: deserialization never alters the index field — the decoded key's
index is the input record's index, whatever it is. -/
theorem deserialize_preserves_idx (s : SerKey) (k : Key)
    (h : Key.deserialize s = some k) : k.idx = s.idx :=
  (deserialize_shape s k h).1

/-- C10 witness: decoding `{idx: u32::MAX, version: 9}` keeps the index
`u32::MAX` (the decoded key is the null key). -/
theorem deserialize_preserves_idx_witness :
    Key.null.idx = SerKey.idx ⟨u32Max, 9⟩ :=
  deserialize_preserves_idx ⟨u32Max, 9⟩ Key.null (by decide)

/-! ### Claim C8: tombstone permanence -/

/-- C8 (amended): once a removal through handle `h` succeeds, `get h` and
`contains h` report not-found throughout any subsequent operation sequence
of fewer than 2^32 - 1 operations (version wraparound, the spec's accepted
residual risk, is the only way around this); and a reinsert into the freed
slot yields a handle with the same index and a different version. -/
theorem tombstone_bounded {T : Type} (sm sm2 : SlotMap T) (removed : T) (h : Key)
    (ops : List (Op T)) (w : T)
    (hver : h.version < u32Count)
    (hrem : sm.remove h = some (sm2, removed))
    (hlen : ops.length + 1 < u32Count) :
    (applyOps ops sm2).get h = none ∧
    (applyOps ops sm2).contains h = false ∧
    ∃ sm3 k2, sm2.insert w = some (sm3, k2) ∧
      k2.idx = h.idx ∧ k2.version ≠ h.version := by
  obtain ⟨val, hsl, hsm2⟩ :
      ∃ val, sm.slots[h.idx]? = some (Slot.occupied val h.version) ∧
        sm2 = ⟨sm.slots.set h.idx
                 (Slot.vacant sm.free_head ((h.version + 1) % u32Count)),
               some h.idx, sm.num_elems - 1⟩ := by
    unfold SlotMap.remove at hrem
    split at hrem
    · rename_i val ver hsl0
      split at hrem
      · rename_i hveq
        cases hrem
        subst hveq
        exact ⟨removed, hsl0, rfl⟩
      · exact absurd hrem (by simp)
    · exact absurd hrem (by simp)
  subst hsm2
  have hilen : h.idx < sm.slots.length := (List.getElem?_eq_some.mp hsl).1
  have hWval : u32Count = 4294967296 := by norm_num [u32Count]
  have hslot2 : (sm.slots.set h.idx
      (Slot.vacant sm.free_head ((h.version + 1) % u32Count)))[h.idx]? =
      some (Slot.vacant sm.free_head ((h.version + 1) % u32Count)) :=
    List.getElem?_set_self hilen
  have hva : SlotMap.versionAt
      ⟨sm.slots.set h.idx (Slot.vacant sm.free_head ((h.version + 1) % u32Count)),
       some h.idx, sm.num_elems - 1⟩ h.idx = some ((h.version + 1) % u32Count) := by
    unfold SlotMap.versionAt
    simp [hslot2, Slot.version]
  have hvlt : (h.version + 1) % u32Count < u32Count :=
    Nat.mod_lt _ (by norm_num [u32Count])
  obtain ⟨b, hb, hres⟩ := versionAt_applyOps ops _ h.idx _ hva hvlt
  have hne : ((h.version + 1) % u32Count + b) % u32Count ≠ h.version := by
    rw [Nat.mod_add_mod, hWval]
    rw [hWval] at hver hlen
    omega
  have hnf := not_found_of_version_ne
      (applyOps ops ⟨sm.slots.set h.idx
          (Slot.vacant sm.free_head ((h.version + 1) % u32Count)),
        some h.idx, sm.num_elems - 1⟩) h ?_
  · refine ⟨hnf.1, hnf.2, ?_⟩
    refine ⟨⟨(sm.slots.set h.idx
                (Slot.vacant sm.free_head ((h.version + 1) % u32Count))).set h.idx
                  (Slot.occupied w (((h.version + 1) % u32Count + 1) % u32Count)),
             sm.free_head, sm.num_elems - 1 + 1⟩,
            ⟨h.idx, ((h.version + 1) % u32Count + 1) % u32Count⟩, ?_, rfl, ?_⟩
    · unfold SlotMap.insert
      simp [hslot2]
    · show ((h.version + 1) % u32Count + 1) % u32Count ≠ h.version
      rw [Nat.mod_add_mod, hWval]
      rw [hWval] at hver
      omega
  · intro v hv0
    rw [hres] at hv0
    cases hv0
    exact hne

/-- C8 witness: in a one-slot store holding value 5 under handle `(0, 1)`,
removing `(0, 1)` succeeds; after a further insert the handle stays
not-found, and the reinsert reuses index 0 with a different version. -/
theorem tombstone_bounded_witness :
    (applyOps [Op.insert 7] (⟨[Slot.vacant none 2], some 0, 0⟩ : SlotMap Nat)).get
      ⟨0, 1⟩ = none ∧
    (applyOps [Op.insert 7] (⟨[Slot.vacant none 2], some 0, 0⟩ : SlotMap Nat)).contains
      ⟨0, 1⟩ = false ∧
    ∃ sm3 k2, SlotMap.insert (⟨[Slot.vacant none 2], some 0, 0⟩ : SlotMap Nat) 9 =
      some (sm3, k2) ∧ k2.idx = Key.idx ⟨0, 1⟩ ∧ k2.version ≠ Key.version ⟨0, 1⟩ :=
  tombstone_bounded (⟨[Slot.occupied 5 1], none, 1⟩ : SlotMap Nat)
    (⟨[Slot.vacant none 2], some 0, 0⟩ : SlotMap Nat) 5 ⟨0, 1⟩ [Op.insert 7] 9
    (by norm_num [u32Count]) (by decide) (by norm_num [u32Count])

/-- Single-vacant-slot store over `Nat`: the state reached between reuse
cycles in the wraparound counterexample. -/
def vacNat (v : Nat) : SlotMap Nat := ⟨[Slot.vacant none v], some 0, 0⟩

/-- Operation sequence of `n` reuse cycles on slot 0: each cycle reinserts
into the freed slot and then removes the handle it just got back. -/
def cycleOps : Nat → List (Op Nat)
  | 0 => []
  | n + 1 => cycleOps n ++ [Op.insert 7, Op.remove ⟨0, (3 + 2 * n) % u32Count⟩]

theorem applyOps_append {T : Type} (l1 l2 : List (Op T)) (sm : SlotMap T) :
    applyOps (l1 ++ l2) sm = applyOps l2 (applyOps l1 sm) := by
  unfold applyOps
  exact List.foldl_append _ _ l1 l2

/-- After `n` reuse cycles on the freed slot, the slot is vacant with
version `(2 + 2n) mod 2^32`. -/
theorem cycleOps_state (n : Nat) :
    applyOps (cycleOps n) (vacNat 2) = vacNat ((2 + 2 * n) % u32Count) := by
  induction n with
  | zero =>
    have h2 : (2 : Nat) % u32Count = 2 := by norm_num [u32Count]
    simp [cycleOps, applyOps, h2]
  | succ n ih =>
    rw [cycleOps, applyOps_append, ih]
    have h1 : ((2 + 2 * n) % u32Count + 1) % u32Count = (3 + 2 * n) % u32Count := by
      rw [Nat.mod_add_mod]
      congr 1
      omega
    have h2 : ((3 + 2 * n) % u32Count + 1) % u32Count =
        (2 + 2 * (n + 1)) % u32Count := by
      rw [Nat.mod_add_mod]
      congr 1
      omega
    have hins : stepOp (Op.insert 7) (vacNat ((2 + 2 * n) % u32Count)) =
        (⟨[Slot.occupied 7 ((3 + 2 * n) % u32Count)], none, 1⟩ : SlotMap Nat) := by
      simp [stepOp, SlotMap.insert, vacNat, h1]
    have hrem : stepOp (Op.remove ⟨0, (3 + 2 * n) % u32Count⟩)
        (⟨[Slot.occupied 7 ((3 + 2 * n) % u32Count)], none, 1⟩ : SlotMap Nat) =
        vacNat ((2 + 2 * (n + 1)) % u32Count) := by
      simp [stepOp, SlotMap.remove, vacNat, h2]
    simp [applyOps, hins, hrem]

/-- C8 counterexample: the claim's "forever" fails at version wraparound
(the spec's own documented residual risk). Starting from the empty store:
insert a value and get handle `(0, 1)`; remove it successfully (first
conjunct); then run 2^31 - 1 further reuse cycles on slot 0 followed by one
final insert. The final insert reuses slot 0 at wrapped-around version 1,
so the long-removed handle `(0, 1)` is found again by both `get` and
`contains`. -/
theorem tombstone_forever_cex :
    (applyOps [Op.insert 5] (SlotMap.empty Nat)).remove ⟨0, 1⟩ =
      some (vacNat 2, 5) ∧
    (applyOps (cycleOps (2 ^ 31 - 1) ++ [Op.insert 9]) (vacNat 2)).get ⟨0, 1⟩ =
      some 9 ∧
    (applyOps (cycleOps (2 ^ 31 - 1) ++ [Op.insert 9]) (vacNat 2)).contains ⟨0, 1⟩ =
      true := by
  have hz : (2 + 2 * (2 ^ 31 - 1)) % u32Count = 0 := by decide
  refine ⟨by decide, ?_, ?_⟩ <;>
  · rw [applyOps_append, cycleOps_state, hz]
    decide

end Slotmap
